import Mathlib

/-!
# Verification of the Ox editor core

A shallow embedding of the Ox text editor's core data model and operations.
The repository source under verification ships only `main.rs` (CLI bootstrap,
`load_config`, the `log!` macro); the editor-core modules (`row`, `document`,
`undo`, `oxa`) are referenced from `main.rs` but their sources are not
available, so the core operations below are modelled from the specification's
contracts and settled against those models.

Text is modelled as lists of grapheme clusters (`Char`); a `RowStore` is a
list of rows, one per document line.
-/

/-- A grapheme cluster, the unit of column arithmetic. -/
abbrev Grapheme := Char

/-- Modelled from the spec: a `Row` is a single line of text stored as a
sequence of extended grapheme clusters. -/
abbrev Row := List Grapheme

/-- Modelled from the spec: a `RowStore` is an ordered sequence of `Row`s,
index = 0-based line number. -/
abbrev RowStore := List Row

/-- Modelled from the spec: a `Position` is a (row index, grapheme column)
address into the buffer. -/
structure Position where
  row : Nat
  col : Nat
deriving Repr, DecidableEq

/-- Lexicographic order on positions: `start ≤ end` for range normalization. -/
def posLe (p q : Position) : Bool :=
  p.row < q.row || (p.row == q.row && p.col ≤ q.col)

/-- Split a text on the line terminator `'\n'`: `n` terminators yield
`n + 1` pieces, so the result is always non-empty. -/
def splitOnNl : List Char → List (List Char)
  | [] => [[]]
  | c :: rest =>
    if c = '\n' then [] :: splitOnNl rest
    else
      match splitOnNl rest with
      | [] => [[c]]
      | p :: ps => (c :: p) :: ps

/-- Join pieces with the line terminator `'\n'`, inverse of `splitOnNl`. -/
def joinNl : List (List Char) → List Char
  | [] => []
  | [r] => r
  | r :: rs => r ++ '\n' :: joinNl rs

/-- Append `tail` to the last element of a list of rows. -/
def spliceLast (tail : Row) : List Row → List Row
  | [] => [tail]
  | [p] => [p ++ tail]
  | p :: ps => p :: spliceLast tail ps

/-- Modelled from the spec: `insert_at(position, text)` of the missing
`row`/`document` modules. Splits the text on line terminators; with no
terminator it splices into the existing row at the grapheme column; with
terminators the target row is split into multiple rows. Fails (`OutOfBounds`,
modelled as `none`) if the row index is not a valid row or the column exceeds
that row's grapheme length. -/
def insert_at (store : RowStore) (pos : Position) (text : List Char) :
    Option RowStore :=
  match store[pos.row]? with
  | none => none
  | some r =>
    if pos.col ≤ r.length then
      match splitOnNl text with
      | [] => none
      | [p] =>
        some (store.take pos.row ++ [r.take pos.col ++ p ++ r.drop pos.col]
          ++ store.drop (pos.row + 1))
      | p :: ps =>
        some (store.take pos.row
          ++ ((r.take pos.col ++ p) :: spliceLast (r.drop pos.col) ps)
          ++ store.drop (pos.row + 1))
    else none

/-- The position just after the last grapheme of `text` inserted at `pos`. -/
def insEndPos (pos : Position) (text : List Char) : Position :=
  match splitOnNl text with
  | [] => pos
  | [p] => ⟨pos.row, pos.col + p.length⟩
  | _ :: ps => ⟨pos.row + ps.length, (ps.getLastD []).length⟩

/-- Modelled from the spec: `delete_range(start, end)` of the missing
`row`/`document` modules. Requires `start ≤ end` (otherwise `InvalidRange`,
modelled as `none`) and in-bounds endpoints (`OutOfBounds` otherwise); rows
fully covered are removed and merged into the boundary rows; returns the
exact removed text together with the new store. -/
def delete_range (store : RowStore) (s e : Position) :
    Option (List Char × RowStore) :=
  match store[s.row]?, store[e.row]? with
  | some rs, some re =>
    if posLe s e && s.col ≤ rs.length && e.col ≤ re.length then
      if s.row = e.row then
        some ((rs.take e.col).drop s.col,
          store.take s.row ++ [rs.take s.col ++ rs.drop e.col]
            ++ store.drop (s.row + 1))
      else
        some (joinNl (rs.drop s.col
            :: (store.drop (s.row + 1)).take (e.row - s.row - 1)
            ++ [re.take e.col]),
          store.take s.row ++ [rs.take s.col ++ re.drop e.col]
            ++ store.drop (e.row + 1))
    else none
  | _, _ => none

/-- The row-store invariant that every stored row is a single line: no row
contains the line terminator. -/
def NlFree (store : RowStore) : Prop := ∀ r ∈ store, '\n' ∉ r

instance : DecidablePred NlFree := fun store =>
  List.decidableBAll (fun r => '\n' ∉ r) store

/-- Modelled from the spec: an undo `Event` is a literal-content snapshot:
the affected `Position` range and the exact text inserted or removed. -/
inductive Event where
  | insertion (start stop : Position) (text : List Char)
  | deletion (start stop : Position) (text : List Char)
deriving Repr, DecidableEq

/-- Modelled from the spec: the editor-core state the undo engine acts on —
the buffer plus the two event stacks (represented most-recent-first). -/
structure EditorState where
  store : RowStore
  undoStack : List Event
  redoStack : List Event
deriving Repr, DecidableEq

/-- A primitive mutating buffer operation. -/
inductive EditOp where
  | insert (pos : Position) (text : List Char)
  | delete (start stop : Position)
deriving Repr, DecidableEq

/-- Apply a primitive operation to the buffer, producing the new buffer and
the literal-content `Event` recording it. -/
def applyOp (store : RowStore) : EditOp → Option (RowStore × Event)
  | .insert pos text =>
    (insert_at store pos text).map fun store' =>
      (store', .insertion pos (insEndPos pos text) text)
  | .delete s e =>
    (delete_range store s e).map fun (removed, store') =>
      (store', .deletion s e removed)

/-- Apply an `Event`'s inverse to the buffer (the undo direction). -/
def undoEvent (store : RowStore) : Event → Option RowStore
  | .insertion s e _ => (delete_range store s e).map (·.2)
  | .deletion s _ text => insert_at store s text

/-- Re-apply an `Event` to the buffer (the redo direction). -/
def redoEvent (store : RowStore) : Event → Option RowStore
  | .insertion s _ text => insert_at store s text
  | .deletion s e _ => (delete_range store s e).map (·.2)

/-- Modelled from the spec: a mutating command that is not itself undo/redo
records its `Event` on the undo stack (uncoalesced here) and clears the redo
stack. -/
def applyEdit (st : EditorState) (op : EditOp) : Option EditorState :=
  (applyOp st.store op).map fun (store', ev) =>
    ⟨store', ev :: st.undoStack, []⟩

/-- Apply a sequence of mutating commands. -/
def applyEdits (st : EditorState) : List EditOp → Option EditorState
  | [] => some st
  | op :: ops => (applyEdit st op).bind fun st' => applyEdits st' ops

/-- The notice an undo/redo call reports back. -/
inductive HistNotice where
  | done
  | nothingToUndo
  | nothingToRedo
  | internalError
deriving Repr, DecidableEq

/-- Modelled from the spec: `undo()` pops the latest undo `Event`, applies
its inverse to the buffer and pushes the original `Event` onto the redo
stack; reports `NothingToUndo` (leaving the state unchanged) when the undo
stack is empty. -/
def undoOp (st : EditorState) : EditorState × HistNotice :=
  match st.undoStack with
  | [] => (st, .nothingToUndo)
  | ev :: rest =>
    match undoEvent st.store ev with
    | some store' => (⟨store', rest, ev :: st.redoStack⟩, .done)
    | none => (st, .internalError)

/-- Modelled from the spec: `redo()` is symmetric to `undoOp`: pops the redo
stack, re-applies, pushes back to the undo stack; `NothingToRedo` when the
redo stack is empty. -/
def redoOp (st : EditorState) : EditorState × HistNotice :=
  match st.redoStack with
  | [] => (st, .nothingToRedo)
  | ev :: rest =>
    match redoEvent st.store ev with
    | some store' => (⟨store', ev :: st.undoStack, rest⟩, .done)
    | none => (st, .internalError)

/-- Iterated undo. -/
def undoN (n : Nat) (st : EditorState) : EditorState :=
  (fun s => (undoOp s).1)^[n] st

/-- Iterated redo. -/
def redoN (n : Nat) (st : EditorState) : EditorState :=
  (fun s => (redoOp s).1)^[n] st

/-! ## Coalescing (undo engine recording policy) -/

/-- Modelled from the spec: two events coalesce when the previous one is an
insertion, the new one is a single-character insertion, and their positions
are adjacent — the new event starts exactly where the previous one stopped. -/
def coalesces : Event → Event → Bool
  | .insertion _ stop _, .insertion start2 _ text2 =>
    text2.length == 1 && start2 == stop
  | _, _ => false

/-- Merge an adjacent pair of insertion events into one literal-content
insertion event covering both. -/
def mergeEvents : Event → Event → Event
  | .insertion s _ t1, .insertion _ e2 t2 => .insertion s e2 (t1 ++ t2)
  | _, e => e

/-- Modelled from the spec: `record(event)` of the undo engine. Pushes to the
undo stack and clears the redo stack; consecutive single-character insertion
events from the typing origin with adjacent positions and no boundary
trigger are merged into the top event instead of pushed. -/
def record (st : EditorState) (ev : Event) (typingOrigin boundary : Bool) :
    EditorState :=
  match st.undoStack with
  | prev :: rest =>
    if typingOrigin && !boundary && coalesces prev ev then
      ⟨st.store, mergeEvents prev ev :: rest, []⟩
    else ⟨st.store, ev :: st.undoStack, []⟩
  | [] => ⟨st.store, ev :: st.undoStack, []⟩

/-- Type one character at `pos`: insert it and record the event with the
typing origin and no boundary trigger. Returns the new state and the new
cursor position. -/
def typeChar (st : EditorState) (pos : Position) (c : Char) :
    Option (EditorState × Position) :=
  (insert_at st.store pos [c]).map fun store' =>
    let stop := insEndPos pos [c]
    (record ⟨store', st.undoStack, st.redoStack⟩
      (.insertion pos stop [c]) true false, stop)

/-- Type a sequence of characters, each as its own single-character
insertion event, moving the cursor along. -/
def typeChars (st : EditorState) (pos : Position) :
    List Char → Option (EditorState × Position)
  | [] => some (st, pos)
  | c :: cs => (typeChar st pos c).bind fun (st', pos') => typeChars st' pos' cs

/-! ## Command interpreter ("oxa") variable model -/

/-- Modelled from the spec: a `Variable` value is a typed value
(string/number/boolean). -/
inductive Value where
  | str (s : String)
  | num (n : Int)
  | boolean (b : Bool)
deriving Repr, DecidableEq

/-- Modelled from the spec: the process-wide variable table consulted by the
command interpreter. -/
abbrev VarTable := List (String × Value)

/-- Look up a variable by name in the table (most recent assignment wins). -/
def lookupVar (tbl : VarTable) (name : String) : Option Value :=
  match tbl with
  | [] => none
  | (n, v) :: rest => if n = name then some v else lookupVar rest name

/-- Assign a variable: created by macro assignment, mutated by
re-assignment. -/
def setVar (tbl : VarTable) (name : String) (v : Value) : VarTable :=
  (name, v) :: tbl

/-- The interpreter's error taxonomy (the part the variable model needs). -/
inductive OxaError where
  | undefinedVariable (name : String)
  | unknownCommand (name : String)
  | argumentError
deriving Repr, DecidableEq

/-- A command argument: a literal or a `$name` variable reference. -/
inductive Arg where
  | lit (v : Value)
  | varRef (name : String)
deriving Repr, DecidableEq

/-- Modelled from the spec: argument resolution against the variable table
at execution time; an unresolved variable reference fails with
`UndefinedVariable`. -/
def resolveArg (tbl : VarTable) : Arg → Except OxaError Value
  | .lit v => .ok v
  | .varRef name =>
    match lookupVar tbl name with
    | some v => .ok v
    | none => .error (.undefinedVariable name)

/-- A parsed interpreter command (the fragment the variable claims need):
`set $x <arg>` or a command that references an argument's value. -/
inductive Cmd where
  | set (name : String) (arg : Arg)
  | use (arg : Arg)
deriving Repr, DecidableEq

/-- Modelled from the spec: execute one command against the variable table,
returning the updated table and the value the command observed (if any). -/
def runCmd (tbl : VarTable) : Cmd → Except OxaError (VarTable × Option Value)
  | .set name arg =>
    (resolveArg tbl arg).map fun v => (setVar tbl name v, none)
  | .use arg =>
    (resolveArg tbl arg).map fun v => (tbl, some v)

/-- Execute a command sequence in one session, returning the final table and
the value observed by the last command. -/
def runSession (tbl : VarTable) :
    List Cmd → Except OxaError (VarTable × Option Value)
  | [] => .ok (tbl, none)
  | c :: cs =>
    (runCmd tbl c).bind fun (tbl', out) =>
      match cs with
      | [] => .ok (tbl', out)
      | _ => runSession tbl' cs

/-! ## Bootstrap layer (`main.rs`, embedded from the source) -/

/-- The environment `load_config` consults: `BaseDirs::new()` may fail
(outer `Option`), and `config_dir().to_str()` may fail on non-UTF-8 paths
(inner `Option`, carrying the UTF-8 config-directory path). -/
abbrev BaseDirsEnv := Option (Option String)

/-- `load_config` from `src/main.rs`: `BaseDirs::new()?`, then
`config_dir().to_str()?`, then `format!("{}/ox/ox.ron", …)`. -/
def load_config (env : BaseDirsEnv) : Option String := do
  let baseDirs ← env
  let dir ← baseDirs
  pure (dir ++ "/ox/ox.ron")

/-- The non-WASI `main` from `src/main.rs` computes the default config path:
`load_config().unwrap_or_else(|| "~/.config/ox/ox.ron".to_string())`. -/
def mainConfigDir (env : BaseDirsEnv) : String :=
  (load_config env).getD "~/.config/ox/ox.ron"

/-- Outcome of one `log!` invocation: the line appended to `/tmp/ox.log`, or
a process panic. There is no error-return outcome. -/
inductive LogOutcome where
  | appended (line : String)
  | panicked
deriving Repr, DecidableEq

/-- The `log!` macro from `src/main.rs`: open `/tmp/ox.log` for
create/append; on `Ok`, `writeln!(…).unwrap()` (panics if the write fails),
on `Err`, `panic!`. `openOk`/`writeOk` model the two I/O results. -/
def logInvoke (openOk writeOk : Bool) (ty msg : String) : LogOutcome :=
  if openOk then
    if writeOk then .appended (ty ++ ": " ++ msg) else .panicked
  else .panicked

/-- `UndoChain s0 evs s`: the event stack `evs` (most recent first) unwinds
the buffer `s` back to `s0` one inverse application at a time, and re-applies
forward again. -/
inductive UndoChain : RowStore → List Event → RowStore → Prop where
  | nil (s : RowStore) : UndoChain s [] s
  | cons {s0 s s' : RowStore} {evs : List Event} {e : Event} :
      UndoChain s0 evs s → undoEvent s' e = some s →
      redoEvent s e = some s' → UndoChain s0 (e :: evs) s'

/-- A single editor-core step: a recorded mutating edit, an undo, or a
redo. -/
inductive EditorStep : EditorState → EditorState → Prop where
  | edit {st st' : EditorState} (op : EditOp) :
      applyEdit st op = some st' → EditorStep st st'
  | undo (st : EditorState) : EditorStep st (undoOp st).1
  | redo (st : EditorState) : EditorStep st (redoOp st).1

/-- States reachable by any sequence of editor-core operations. -/
def ReachableState (st st' : EditorState) : Prop :=
  Relation.ReflTransGen EditorStep st st'

/-- An empty document: exactly one empty `Row`. -/
def emptyDocument : RowStore := [[]]

/-! ## Lemmas on splitting and joining lines -/

theorem splitOnNl_ne_nil (t : List Char) : splitOnNl t ≠ [] := by
  induction t with
  | nil => simp [splitOnNl]
  | cons c rest ih =>
    simp only [splitOnNl]
    split
    · simp
    · cases h : splitOnNl rest <;> simp

theorem joinNl_splitOnNl (t : List Char) : joinNl (splitOnNl t) = t := by
  induction t with
  | nil => rfl
  | cons c rest ih =>
    simp only [splitOnNl]
    split
    · rename_i hc
      subst hc
      cases h : splitOnNl rest with
      | nil => exact absurd h (splitOnNl_ne_nil rest)
      | cons p ps =>
        rw [h] at ih
        simp only [joinNl, List.nil_append]
        rw [ih]
    · rename_i hc
      cases h : splitOnNl rest with
      | nil => exact absurd h (splitOnNl_ne_nil rest)
      | cons p ps =>
        rw [h] at ih
        cases ps with
        | nil => simp only [joinNl] at ih ⊢; rw [ih]
        | cons q qs =>
          simp only [joinNl] at ih ⊢
          rw [List.cons_append, ih]

theorem splitOnNl_nlFree (t : List Char) : ∀ p ∈ splitOnNl t, '\n' ∉ p := by
  induction t with
  | nil => simp [splitOnNl]
  | cons c rest ih =>
    simp only [splitOnNl]
    split
    · rename_i hc
      intro p hp
      rcases List.mem_cons.mp hp with rfl | hp
      · simp
      · exact ih p hp
    · rename_i hc
      cases h : splitOnNl rest with
      | nil => exact absurd h (splitOnNl_ne_nil rest)
      | cons p ps =>
        rw [h] at ih
        intro x hx
        rcases List.mem_cons.mp hx with rfl | hx
        · intro hmem
          rcases List.mem_cons.mp hmem with h1 | h1
          · exact hc h1.symm
          · exact ih p (List.mem_cons_self p ps) h1
        · exact ih x (List.mem_cons_of_mem _ hx)

theorem splitOnNl_eq_single (t : List Char) (h : '\n' ∉ t) :
    splitOnNl t = [t] := by
  induction t with
  | nil => rfl
  | cons c rest ih =>
    have hc : ¬(c = '\n') := fun hc => h (hc ▸ List.mem_cons_self c rest)
    have hr : '\n' ∉ rest := fun hm => h (List.mem_cons_of_mem c hm)
    simp only [splitOnNl, if_neg hc, ih hr]

theorem splitOnNl_append_nl (a b : List Char) (h : '\n' ∉ a) :
    splitOnNl (a ++ '\n' :: b) = a :: splitOnNl b := by
  induction a with
  | nil => simp [splitOnNl]
  | cons c cs ih =>
    have hc : ¬(c = '\n') := fun hc => h (hc ▸ List.mem_cons_self c cs)
    have hcs : '\n' ∉ cs := fun hm => h (List.mem_cons_of_mem c hm)
    simp only [List.cons_append, splitOnNl, List.append_eq, if_neg hc, ih hcs]

theorem splitOnNl_joinNl (ps : List (List Char)) (hne : ps ≠ [])
    (hnl : ∀ p ∈ ps, '\n' ∉ p) : splitOnNl (joinNl ps) = ps := by
  induction ps with
  | nil => exact absurd rfl hne
  | cons p qs ih =>
    cases qs with
    | nil => simp only [joinNl]; exact splitOnNl_eq_single p (hnl p (by simp))
    | cons q rs =>
      simp only [joinNl]
      rw [splitOnNl_append_nl p (joinNl (q :: rs)) (hnl p (by simp))]
      rw [ih (by simp) (fun x hx => hnl x (List.mem_cons_of_mem _ hx))]

theorem spliceLast_concat (a : Row) (xs : List Row) (y : Row) :
    spliceLast a (xs ++ [y]) = xs ++ [y ++ a] := by
  induction xs with
  | nil => rfl
  | cons x xs ih =>
    cases xs with
    | nil => rfl
    | cons z zs =>
      simp only [List.cons_append, spliceLast, List.append_eq] at ih ⊢
      rw [ih]

/-! ## Lemmas on list surgery -/

theorem store_take_cons_drop {α : Type} {l : List α} {i : Nat} {r : α}
    (h : l[i]? = some r) : l = l.take i ++ r :: l.drop (i + 1) := by
  obtain ⟨hlt, hr⟩ := List.getElem?_eq_some.mp h
  subst hr
  conv_lhs => rw [← List.take_append_drop i l]
  rw [List.drop_eq_getElem_cons hlt]

theorem getElem?_middle {α : Type} (A : List α) (x : α) (B : List α)
    {i : Nat} (h : i = A.length) : (A ++ x :: B)[i]? = some x := by
  subst h
  rw [List.getElem?_append_right (le_refl _)]
  simp

/-! ## Computation and inversion lemmas for insert and delete -/

theorem insert_at_no_nl {store : RowStore} {pos : Position} {r : Row}
    (hr : store[pos.row]? = some r) (hc : pos.col ≤ r.length)
    {text : List Char} (hnl : '\n' ∉ text) :
    insert_at store pos text =
      some (store.take pos.row ++ [r.take pos.col ++ text ++ r.drop pos.col]
        ++ store.drop (pos.row + 1)) := by
  simp only [insert_at, hr, splitOnNl_eq_single text hnl]
  rw [if_pos hc]

theorem insert_at_multi {store : RowStore} {pos : Position} {r : Row}
    (hr : store[pos.row]? = some r) (hc : pos.col ≤ r.length)
    {text : List Char} {p : List Char} {ps : List (List Char)}
    (hsplit : splitOnNl text = p :: ps) (hne : ps ≠ []) :
    insert_at store pos text =
      some (store.take pos.row
        ++ ((r.take pos.col ++ p) :: spliceLast (r.drop pos.col) ps)
        ++ store.drop (pos.row + 1)) := by
  cases ps with
  | nil => exact absurd rfl hne
  | cons q qs =>
    simp only [insert_at, hr, hsplit]
    rw [if_pos hc]

theorem delete_range_same_row {store : RowStore} {i c1 c2 : Nat} {r : Row}
    (hr : store[i]? = some r) (h12 : c1 ≤ c2) (h2 : c2 ≤ r.length) :
    delete_range store ⟨i, c1⟩ ⟨i, c2⟩ =
      some ((r.take c2).drop c1,
        store.take i ++ [r.take c1 ++ r.drop c2] ++ store.drop (i + 1)) := by
  have h1 : c1 ≤ r.length := le_trans h12 h2
  simp only [delete_range, hr]
  simp [posLe, h12, h1, h2]

theorem delete_range_multi {store : RowStore} {i j c1 c2 : Nat} {rs re : Row}
    (hrs : store[i]? = some rs) (hre : store[j]? = some re) (hij : i < j)
    (h1 : c1 ≤ rs.length) (h2 : c2 ≤ re.length) :
    delete_range store ⟨i, c1⟩ ⟨j, c2⟩ =
      some (joinNl (rs.drop c1 :: (store.drop (i + 1)).take (j - i - 1)
          ++ [re.take c2]),
        store.take i ++ [rs.take c1 ++ re.drop c2] ++ store.drop (j + 1)) := by
  have hne : ¬(i = j) := Nat.ne_of_lt hij
  simp only [delete_range, hrs, hre]
  simp [posLe, hij, h1, h2, hne]

theorem insert_at_inv {store : RowStore} {pos : Position} {text : List Char}
    {store' : RowStore} (h : insert_at store pos text = some store') :
    ∃ r, store[pos.row]? = some r ∧ pos.col ≤ r.length ∧
      ((∃ p, splitOnNl text = [p] ∧
          store' = store.take pos.row
            ++ [r.take pos.col ++ p ++ r.drop pos.col]
            ++ store.drop (pos.row + 1)) ∨
        (∃ p ps, splitOnNl text = p :: ps ∧ ps ≠ [] ∧
          store' = store.take pos.row
            ++ ((r.take pos.col ++ p) :: spliceLast (r.drop pos.col) ps)
            ++ store.drop (pos.row + 1))) := by
  unfold insert_at at h
  split at h
  · exact absurd h (by simp)
  · rename_i r hr
    split at h
    · rename_i hc
      split at h
      · exact absurd h (by simp)
      · rename_i p hp
        exact ⟨r, hr, hc, .inl ⟨p, hp, (Option.some_inj.mp h).symm⟩⟩
      · rename_i p ps hps hp
        exact ⟨r, hr, hc, .inr ⟨p, ps, hp, fun hn => hps hn,
          (Option.some_inj.mp h).symm⟩⟩
    · exact absurd h (by simp)

theorem delete_range_inv {store : RowStore} {s e : Position}
    {removed : List Char} {store' : RowStore}
    (h : delete_range store s e = some (removed, store')) :
    ∃ rs re, store[s.row]? = some rs ∧ store[e.row]? = some re ∧
      posLe s e = true ∧ s.col ≤ rs.length ∧ e.col ≤ re.length ∧
      ((s.row = e.row ∧ removed = (rs.take e.col).drop s.col ∧
          store' = store.take s.row ++ [rs.take s.col ++ rs.drop e.col]
            ++ store.drop (s.row + 1)) ∨
        (s.row ≠ e.row ∧
          removed = joinNl (rs.drop s.col
            :: (store.drop (s.row + 1)).take (e.row - s.row - 1)
            ++ [re.take e.col]) ∧
          store' = store.take s.row ++ [rs.take s.col ++ re.drop e.col]
            ++ store.drop (e.row + 1))) := by
  unfold delete_range at h
  split at h
  · rename_i rs re hrs hre
    split at h
    · rename_i hcond
      simp only [Bool.and_eq_true, decide_eq_true_eq] at hcond
      obtain ⟨⟨hle, h1⟩, h2⟩ := hcond
      split at h
      · rename_i heq
        rw [Option.some_inj, Prod.mk.injEq] at h
        exact ⟨rs, re, hrs, hre, hle, h1, h2, .inl ⟨heq, h.1.symm, h.2.symm⟩⟩
      · rename_i hne
        rw [Option.some_inj, Prod.mk.injEq] at h
        exact ⟨rs, re, hrs, hre, hle, h1, h2, .inr ⟨hne, h.1.symm, h.2.symm⟩⟩
    · exact absurd h (by simp)
  · exact absurd h (by simp)

/-! ## The undo-event inverse property of insert and delete -/

theorem insert_then_delete {store : RowStore} {pos : Position}
    {text : List Char} {store' : RowStore}
    (h : insert_at store pos text = some store') :
    delete_range store' pos (insEndPos pos text) = some (text, store) := by
  obtain ⟨i, c⟩ := pos
  obtain ⟨r, hr, hc, hcase⟩ := insert_at_inv h
  replace hr : store[i]? = some r := hr
  replace hc : c ≤ r.length := hc
  have hi : i < store.length := (List.getElem?_eq_some.mp hr).1
  have htakeS : (store.take i).length = i := List.length_take_of_le (le_of_lt hi)
  have htakeR : (r.take c).length = c := List.length_take_of_le hc
  rcases hcase with ⟨p, hp, hst⟩ | ⟨p, ps, hp, hne, hst⟩
  · -- no line terminator: a single spliced row
    replace hst : store' = (store.take i ++ [r.take c ++ p ++ r.drop c])
        ++ store.drop (i + 1) := hst
    have htext : p = text := by
      have hj := joinNl_splitOnNl text
      rw [hp] at hj
      simpa [joinNl] using hj
    subst htext
    have he : insEndPos ⟨i, c⟩ p = ⟨i, c + p.length⟩ := by
      simp [insEndPos, hp]
    have hshape : store' = store.take i
        ++ (r.take c ++ p ++ r.drop c) :: store.drop (i + 1) := by
      rw [hst, List.append_assoc, List.singleton_append]
    have hrow : store'[i]? = some (r.take c ++ p ++ r.drop c) := by
      rw [hshape]; exact getElem?_middle _ _ _ htakeS.symm
    have hlen2 : c + p.length ≤ (r.take c ++ p ++ r.drop c).length := by
      simp only [List.length_append, htakeR]; omega
    rw [he, delete_range_same_row hrow (Nat.le_add_right _ _) hlen2]
    have ha : (r.take c ++ p ++ r.drop c).take (c + p.length)
        = r.take c ++ p :=
      List.take_left' (by simp only [List.length_append, htakeR])
    have hb : (r.take c ++ p).drop c = p := List.drop_left' htakeR
    have hcc : (r.take c ++ p ++ r.drop c).take c = r.take c := by
      rw [List.append_assoc]
      exact List.take_left' htakeR
    have hd : (r.take c ++ p ++ r.drop c).drop (c + p.length) = r.drop c :=
      List.drop_left' (by simp only [List.length_append, htakeR])
    have he' : store'.take i = store.take i := by
      rw [hshape]; exact List.take_left' htakeS
    have hf : store'.drop (i + 1) = store.drop (i + 1) := by
      rw [hst]
      exact List.drop_left'
        (by simp only [List.length_append, List.length_singleton, htakeS])
    rw [ha, hb, hcc, hd, he', hf, List.take_append_drop]
    have hfin : (store.take i ++ [r]) ++ store.drop (i + 1) = store := by
      rw [List.append_assoc, List.singleton_append, ← store_take_cons_drop hr]
    rw [hfin]
  · -- line terminators: the row was split into several rows
    obtain ⟨qs, q, rfl⟩ := (List.eq_nil_or_concat ps).resolve_left hne
    rw [List.concat_eq_append] at hp hst
    replace hst : store' = (store.take i
        ++ ((r.take c ++ p) :: spliceLast (r.drop c) (qs ++ [q])))
        ++ store.drop (i + 1) := hst
    rw [spliceLast_concat] at hst
    have htext : joinNl (p :: (qs ++ [q])) = text := by
      have hj := joinNl_splitOnNl text
      rw [hp] at hj
      exact hj
    have he : insEndPos ⟨i, c⟩ text = ⟨i + (qs.length + 1), q.length⟩ := by
      cases qs with
      | nil => simp [insEndPos, hp]
      | cons q0 qs0 =>
        unfold insEndPos
        rw [hp]
        show (⟨i + (q0 :: (qs0 ++ [q])).length,
          ((q0 :: (qs0 ++ [q])).getLastD []).length⟩ : Position)
          = ⟨i + ((q0 :: qs0).length + 1), q.length⟩
        rw [List.getLastD_cons, List.getLastD_concat]
        simp only [List.length_cons, List.length_append,
          List.length_singleton, List.length_nil, Position.mk.injEq]
    have hshape1 : store' = store.take i
        ++ (r.take c ++ p) :: (qs ++ (q ++ r.drop c) :: store.drop (i + 1)) := by
      rw [hst]; simp [List.append_assoc]
    have hrow1 : store'[i]? = some (r.take c ++ p) := by
      rw [hshape1]; exact getElem?_middle _ _ _ htakeS.symm
    have hshape2 : store' = (store.take i ++ (r.take c ++ p) :: qs)
        ++ (q ++ r.drop c) :: store.drop (i + 1) := by
      rw [hst]; simp [List.append_assoc]
    have hlenA : (store.take i ++ (r.take c ++ p) :: qs).length
        = i + (qs.length + 1) := by
      simp only [List.length_append, List.length_cons, htakeS]
    have hrowL : store'[i + (qs.length + 1)]? = some (q ++ r.drop c) := by
      rw [hshape2]; exact getElem?_middle _ _ _ hlenA.symm
    have hij : i < i + (qs.length + 1) := by omega
    have h1 : c ≤ (r.take c ++ p).length := by
      simp only [List.length_append, htakeR]; omega
    have h2 : q.length ≤ (q ++ r.drop c).length := by
      simp only [List.length_append]; omega
    rw [he, delete_range_multi hrow1 hrowL hij h1 h2]
    have hshape3 : store' = (store.take i ++ [r.take c ++ p])
        ++ (qs ++ (q ++ r.drop c) :: store.drop (i + 1)) := by
      rw [hst]; simp [List.append_assoc]
    have hdrop1 : store'.drop (i + 1)
        = qs ++ (q ++ r.drop c) :: store.drop (i + 1) := by
      rw [hshape3]
      exact List.drop_left'
        (by simp only [List.length_append, List.length_singleton, htakeS])
    have hmid : (store'.drop (i + 1)).take (i + (qs.length + 1) - i - 1)
        = qs := by
      rw [hdrop1]
      have harith : i + (qs.length + 1) - i - 1 = qs.length := by omega
      rw [harith]
      exact List.take_left' rfl
    have ha : (r.take c ++ p).drop c = p := List.drop_left' htakeR
    have hb : (q ++ r.drop c).take q.length = q := List.take_left' rfl
    have hcc : (r.take c ++ p).take c = r.take c := List.take_left' htakeR
    have hd : (q ++ r.drop c).drop q.length = r.drop c := List.drop_left' rfl
    have he' : store'.take i = store.take i := by
      rw [hshape1]; exact List.take_left' htakeS
    have hf : store'.drop (i + (qs.length + 1) + 1) = store.drop (i + 1) := by
      rw [hst]
      exact List.drop_left'
        (by simp only [List.length_append, List.length_cons,
          List.length_singleton, List.length_nil, htakeS]; omega)
    rw [hmid, ha, hb, hcc, hd, he', hf, List.take_append_drop]
    have hfin : (store.take i ++ [r]) ++ store.drop (i + 1) = store := by
      rw [List.append_assoc, List.singleton_append, ← store_take_cons_drop hr]
    rw [hfin, List.cons_append, htext]

theorem delete_then_insert {store : RowStore} {s e : Position}
    {removed : List Char} {store' : RowStore} (hnl : NlFree store)
    (h : delete_range store s e = some (removed, store')) :
    insert_at store' s removed = some store := by
  obtain ⟨i, c1⟩ := s
  obtain ⟨j, c2⟩ := e
  obtain ⟨rs, re, hrs, hre, hle, h1, h2, hcase⟩ := delete_range_inv h
  replace hrs : store[i]? = some rs := hrs
  replace hre : store[j]? = some re := hre
  replace h1 : c1 ≤ rs.length := h1
  replace h2 : c2 ≤ re.length := h2
  replace hle : posLe ⟨i, c1⟩ ⟨j, c2⟩ = true := hle
  simp only [posLe, Bool.or_eq_true, Bool.and_eq_true, decide_eq_true_eq,
    beq_iff_eq] at hle
  have hi : i < store.length := (List.getElem?_eq_some.mp hrs).1
  have hj : j < store.length := (List.getElem?_eq_some.mp hre).1
  have htakeS : (store.take i).length = i := List.length_take_of_le (le_of_lt hi)
  have htake1 : (rs.take c1).length = c1 := List.length_take_of_le h1
  have hrsmem : '\n' ∉ rs := hnl rs (List.getElem?_mem hrs)
  have hremem : '\n' ∉ re := hnl re (List.getElem?_mem hre)
  rcases hcase with ⟨heq, hrm, hst⟩ | ⟨hne, hrm, hst⟩
  · -- deletion inside a single row
    replace heq : i = j := heq
    subst heq
    have hrre : re = rs := by
      rw [hrs] at hre; exact (Option.some_inj.mp hre).symm
    subst hrre
    replace hrm : removed = (re.take c2).drop c1 := hrm
    replace hst : store' = (store.take i ++ [re.take c1 ++ re.drop c2])
        ++ store.drop (i + 1) := hst
    replace htake1 : (re.take c1).length = c1 := htake1
    have hc12 : c1 ≤ c2 := by
      rcases hle with hlt | ⟨_, hc⟩
      · exact absurd hlt (lt_irrefl i)
      · exact hc
    have hremnl : '\n' ∉ removed := by
      rw [hrm]
      intro hm
      exact hrsmem (List.mem_of_mem_take (List.mem_of_mem_drop hm))
    have hshape : store' = store.take i
        ++ (re.take c1 ++ re.drop c2) :: store.drop (i + 1) := by
      rw [hst, List.append_assoc, List.singleton_append]
    have hrow : store'[i]? = some (re.take c1 ++ re.drop c2) := by
      rw [hshape]; exact getElem?_middle _ _ _ htakeS.symm
    have hcol : c1 ≤ (re.take c1 ++ re.drop c2).length := by
      simp only [List.length_append, htake1]; omega
    have hins := @insert_at_no_nl store' ⟨i, c1⟩ (re.take c1 ++ re.drop c2)
      hrow hcol removed hremnl
    replace hins : insert_at store' ⟨i, c1⟩ removed
        = some ((store'.take i
          ++ [(re.take c1 ++ re.drop c2).take c1 ++ removed
            ++ (re.take c1 ++ re.drop c2).drop c1])
          ++ store'.drop (i + 1)) := hins
    rw [hins]
    have ha : (re.take c1 ++ re.drop c2).take c1 = re.take c1 :=
      List.take_left' htake1
    have hb : (re.take c1 ++ re.drop c2).drop c1 = re.drop c2 :=
      List.drop_left' htake1
    have he' : store'.take i = store.take i := by
      rw [hshape]; exact List.take_left' htakeS
    have hf : store'.drop (i + 1) = store.drop (i + 1) := by
      rw [hst]
      exact List.drop_left'
        (by simp only [List.length_append, List.length_singleton, htakeS])
    rw [ha, hb, he', hf, hrm]
    have hY : (re.take c2).take c1 = re.take c1 := by
      rw [List.take_take, inf_eq_left.mpr hc12]
    have hZ : re.take c1 ++ (re.take c2).drop c1 = re.take c2 := by
      rw [← hY]; exact List.take_append_drop c1 (re.take c2)
    rw [hZ, List.take_append_drop]
    have hfin : (store.take i ++ [re]) ++ store.drop (i + 1) = store := by
      rw [List.append_assoc, List.singleton_append, ← store_take_cons_drop hrs]
    rw [hfin]
  · -- deletion spanning several rows
    replace hne : ¬(i = j) := hne
    have hij : i < j := by
      rcases hle with hlt | ⟨hij', _⟩
      · exact hlt
      · exact absurd hij' hne
    replace hrm : removed = joinNl ((rs.drop c1
        :: (store.drop (i + 1)).take (j - i - 1)) ++ [re.take c2]) := hrm
    replace hst : store' = (store.take i ++ [rs.take c1 ++ re.drop c2])
        ++ store.drop (j + 1) := hst
    have hmidnl : ∀ m ∈ (store.drop (i + 1)).take (j - i - 1), '\n' ∉ m :=
      fun m hm =>
        hnl m (List.mem_of_mem_drop (List.mem_of_mem_take hm))
    have hpiecesnl : ∀ p ∈ (rs.drop c1
        :: (store.drop (i + 1)).take (j - i - 1)) ++ [re.take c2],
        '\n' ∉ p := by
      intro p hp
      rcases List.mem_append.mp hp with hp | hp
      · rcases List.mem_cons.mp hp with rfl | hp
        · exact fun hm => hrsmem (List.mem_of_mem_drop hm)
        · exact hmidnl p hp
      · rcases List.mem_singleton.mp hp with rfl
        exact fun hm => hremem (List.mem_of_mem_take hm)
    have hsplit : splitOnNl removed = (rs.drop c1
        :: (store.drop (i + 1)).take (j - i - 1)) ++ [re.take c2] := by
      rw [hrm]
      exact splitOnNl_joinNl _ (by simp) hpiecesnl
    rw [List.cons_append] at hsplit
    have hshape : store' = store.take i
        ++ (rs.take c1 ++ re.drop c2) :: store.drop (j + 1) := by
      rw [hst, List.append_assoc, List.singleton_append]
    have hrow : store'[i]? = some (rs.take c1 ++ re.drop c2) := by
      rw [hshape]; exact getElem?_middle _ _ _ htakeS.symm
    have hcol : c1 ≤ (rs.take c1 ++ re.drop c2).length := by
      simp only [List.length_append, htake1]; omega
    have hins := @insert_at_multi store' ⟨i, c1⟩ (rs.take c1 ++ re.drop c2)
      hrow hcol removed (rs.drop c1)
      ((store.drop (i + 1)).take (j - i - 1) ++ [re.take c2])
      hsplit (by simp)
    replace hins : insert_at store' ⟨i, c1⟩ removed
        = some ((store'.take i
          ++ (((rs.take c1 ++ re.drop c2).take c1 ++ rs.drop c1)
            :: spliceLast ((rs.take c1 ++ re.drop c2).drop c1)
              ((store.drop (i + 1)).take (j - i - 1) ++ [re.take c2])))
          ++ store'.drop (i + 1)) := hins
    rw [hins]
    have ha : (rs.take c1 ++ re.drop c2).take c1 = rs.take c1 :=
      List.take_left' htake1
    have hb : (rs.take c1 ++ re.drop c2).drop c1 = re.drop c2 :=
      List.drop_left' htake1
    have he' : store'.take i = store.take i := by
      rw [hshape]; exact List.take_left' htakeS
    have hf : store'.drop (i + 1) = store.drop (j + 1) := by
      rw [hst]
      exact List.drop_left'
        (by simp only [List.length_append, List.length_singleton, htakeS])
    rw [ha, hb, he', hf, spliceLast_concat, List.take_append_drop,
      List.take_append_drop]
    obtain ⟨hj', hgetj⟩ := List.getElem?_eq_some.mp hre
    have hdrop : store.drop (i + 1)
        = (store.drop (i + 1)).take (j - i - 1) ++ re :: store.drop (j + 1) := by
      have h3 := (List.take_append_drop (j - i - 1) (store.drop (i + 1))).symm
      rw [List.drop_drop] at h3
      have harith : i + 1 + (j - i - 1) = j := by omega
      rw [harith] at h3
      conv_lhs => rw [h3]
      rw [List.drop_eq_getElem_cons hj, hgetj]
    have hdec : store = store.take i
        ++ rs :: ((store.drop (i + 1)).take (j - i - 1)
          ++ re :: store.drop (j + 1)) := by
      conv_lhs => rw [store_take_cons_drop hrs, hdrop]
    have hfin : (store.take i
        ++ rs :: ((store.drop (i + 1)).take (j - i - 1) ++ [re]))
        ++ store.drop (j + 1) = store := by
      conv_rhs => rw [hdec]
      simp [List.append_assoc]
    rw [hfin]

/-! ## Preservation of the row-store invariants -/

theorem nlFree_insert_at {store : RowStore} {pos : Position}
    {text : List Char} {store' : RowStore} (hnl : NlFree store)
    (h : insert_at store pos text = some store') : NlFree store' := by
  obtain ⟨r, hr, hc, hcase⟩ := insert_at_inv h
  have hpieces := splitOnNl_nlFree text
  have hrnl : '\n' ∉ r := hnl r (List.getElem?_mem hr)
  have htknl : '\n' ∉ r.take pos.col := fun hm => hrnl (List.mem_of_mem_take hm)
  have hdrnl : '\n' ∉ r.drop pos.col := fun hm => hrnl (List.mem_of_mem_drop hm)
  rcases hcase with ⟨p, hp, hst⟩ | ⟨p, ps, hp, hne, hst⟩
  · have hpnl : '\n' ∉ p := hpieces p (by rw [hp]; simp)
    intro x hx
    rw [hst] at hx
    simp only [List.mem_append, List.mem_singleton] at hx
    rcases hx with (hx | rfl) | hx
    · exact hnl x (List.mem_of_mem_take hx)
    · intro hm
      simp only [List.mem_append] at hm
      rcases hm with (hm | hm) | hm
      · exact htknl hm
      · exact hpnl hm
      · exact hdrnl hm
    · exact hnl x (List.mem_of_mem_drop hx)
  · obtain ⟨qs, q, rfl⟩ := (List.eq_nil_or_concat ps).resolve_left hne
    rw [List.concat_eq_append] at hp hst
    rw [spliceLast_concat] at hst
    have hpnl : '\n' ∉ p := hpieces p (by rw [hp]; simp)
    have hqnl : '\n' ∉ q := hpieces q (by rw [hp]; simp)
    have hqsnl : ∀ m ∈ qs, '\n' ∉ m := fun m hm =>
      hpieces m (by rw [hp]; simp [hm])
    intro x hx
    rw [hst] at hx
    simp only [List.mem_append, List.mem_cons, List.mem_singleton,
      List.not_mem_nil, or_false] at hx
    rcases hx with (hx | rfl | hx | rfl) | hx
    · exact hnl x (List.mem_of_mem_take hx)
    · intro hm
      rcases List.mem_append.mp hm with hm | hm
      · exact htknl hm
      · exact hpnl hm
    · exact hqsnl x hx
    · intro hm
      rcases List.mem_append.mp hm with hm | hm
      · exact hqnl hm
      · exact hdrnl hm
    · exact hnl x (List.mem_of_mem_drop hx)

theorem nlFree_delete_range {store : RowStore} {s e : Position}
    {removed : List Char} {store' : RowStore} (hnl : NlFree store)
    (h : delete_range store s e = some (removed, store')) : NlFree store' := by
  obtain ⟨rs, re, hrs, hre, hle, h1, h2, hcase⟩ := delete_range_inv h
  have hrsnl : '\n' ∉ rs := hnl rs (List.getElem?_mem hrs)
  have hrenl : '\n' ∉ re := hnl re (List.getElem?_mem hre)
  rcases hcase with ⟨heq, hrm, hst⟩ | ⟨hne, hrm, hst⟩ <;>
  · intro x hx
    rw [hst] at hx
    simp only [List.mem_append, List.mem_singleton] at hx
    rcases hx with (hx | rfl) | hx
    · exact hnl x (List.mem_of_mem_take hx)
    · intro hm
      rcases List.mem_append.mp hm with hm | hm
      · exact hrsnl (List.mem_of_mem_take hm)
      · first
        | exact hrsnl (List.mem_of_mem_drop hm)
        | exact hrenl (List.mem_of_mem_drop hm)
    · exact hnl x (List.mem_of_mem_drop hx)

theorem insert_at_ne_nil {store : RowStore} {pos : Position}
    {text : List Char} {store' : RowStore}
    (h : insert_at store pos text = some store') : store' ≠ [] := by
  obtain ⟨r, hr, hc, hcase⟩ := insert_at_inv h
  rcases hcase with ⟨p, hp, hst⟩ | ⟨p, ps, hp, hne, hst⟩ <;>
    subst hst <;> simp

theorem delete_range_ne_nil {store : RowStore} {s e : Position}
    {removed : List Char} {store' : RowStore}
    (h : delete_range store s e = some (removed, store')) : store' ≠ [] := by
  obtain ⟨rs, re, hrs, hre, hle, h1, h2, hcase⟩ := delete_range_inv h
  rcases hcase with ⟨heq, hrm, hst⟩ | ⟨hne, hrm, hst⟩ <;>
    subst hst <;> simp

/-! ## The undo chain invariant -/

theorem applyOp_inverse {store store' : RowStore} {op : EditOp} {ev : Event}
    (hnl : NlFree store) (h : applyOp store op = some (store', ev)) :
    undoEvent store' ev = some store ∧ redoEvent store ev = some store' ∧
      NlFree store' := by
  cases op with
  | insert pos text =>
    simp only [applyOp, Option.map_eq_some'] at h
    obtain ⟨a, ha, hpair⟩ := h
    have hfst : a = store' := congrArg Prod.fst hpair
    have hsnd : Event.insertion pos (insEndPos pos text) text = ev :=
      congrArg Prod.snd hpair
    subst hfst
    subst hsnd
    refine ⟨?_, ?_, nlFree_insert_at hnl ha⟩
    · simp only [undoEvent, insert_then_delete ha, Option.map_some']
    · exact ha
  | delete s e =>
    simp only [applyOp, Option.map_eq_some'] at h
    obtain ⟨⟨rm, st2⟩, ha, hpair⟩ := h
    have hfst : st2 = store' := congrArg Prod.fst hpair
    have hsnd : Event.deletion s e rm = ev := congrArg Prod.snd hpair
    subst hfst
    subst hsnd
    refine ⟨?_, ?_, nlFree_delete_range hnl ha⟩
    · exact delete_then_insert hnl ha
    · simp only [redoEvent, ha, Option.map_some']

theorem applyEdits_chain {s0 : RowStore} (ops : List EditOp) :
    ∀ st st' : EditorState, NlFree st.store →
      UndoChain s0 st.undoStack st.store →
      applyEdits st ops = some st' →
      NlFree st'.store ∧ UndoChain s0 st'.undoStack st'.store ∧
        st'.undoStack.length = st.undoStack.length + ops.length := by
  induction ops with
  | nil =>
    intro st st' h1 h2 h3
    simp only [applyEdits, Option.some_inj] at h3
    subst h3
    exact ⟨h1, h2, rfl⟩
  | cons op ops ih =>
    intro st st' h1 h2 h3
    simp only [applyEdits, Option.bind_eq_some] at h3
    obtain ⟨st1, hst1, hrest⟩ := h3
    simp only [applyEdit, Option.map_eq_some'] at hst1
    obtain ⟨⟨store1, ev⟩, hap, hpair⟩ := hst1
    obtain ⟨hu, hr2, hnl1⟩ := applyOp_inverse h1 hap
    subst hpair
    obtain ⟨ha, hb, hcl⟩ :=
      ih ⟨store1, ev :: st.undoStack, []⟩ st' hnl1 (.cons h2 hu hr2) hrest
    refine ⟨ha, hb, ?_⟩
    simp only [List.length_cons] at hcl ⊢
    omega

theorem undoN_succ (n : Nat) (st : EditorState) :
    undoN (n + 1) st = undoN n (undoOp st).1 :=
  Function.iterate_succ_apply (fun s => (undoOp s).1) n st

theorem redoN_succ (n : Nat) (st : EditorState) :
    redoN (n + 1) st = (redoOp (redoN n st)).1 :=
  Function.iterate_succ_apply' (fun s => (redoOp s).1) n st

theorem undoN_chain {s0 : RowStore} {evs : List Event} {s : RowStore}
    (h : UndoChain s0 evs s) :
    ∀ u r, undoN evs.length ⟨s, evs ++ u, r⟩ = ⟨s0, u, evs.reverse ++ r⟩ := by
  induction h with
  | nil => intro u r; simp [undoN]
  | @cons smid s' evs e hch hundo hredo ih =>
    intro u r
    rw [List.length_cons, undoN_succ]
    have hstep : (undoOp ⟨s', (e :: evs) ++ u, r⟩).1
        = ⟨smid, evs ++ u, e :: r⟩ := by
      simp [undoOp, hundo]
    rw [hstep, ih u (e :: r)]
    simp

theorem redoN_chain {s0 : RowStore} {evs : List Event} {s : RowStore}
    (h : UndoChain s0 evs s) :
    ∀ u extra, redoN evs.length ⟨s0, u, evs.reverse ++ extra⟩
      = ⟨s, evs ++ u, extra⟩ := by
  induction h with
  | nil => intro u extra; simp [redoN]
  | @cons smid s' evs e hch hundo hredo ih =>
    intro u extra
    rw [List.length_cons, redoN_succ]
    have hrev : (e :: evs).reverse ++ extra = evs.reverse ++ (e :: extra) := by
      simp
    rw [hrev, ih u (e :: extra)]
    simp [redoOp, hredo]

/-! ## Coalesced typing -/

theorem typeChars_coalesce {store : RowStore} {r : Row} {i k0 : Nat}
    (hr : store[i]? = some r) (hk : k0 ≤ r.length) :
    ∀ (cs acc : List Char), acc ≠ [] → (∀ c ∈ cs, c ≠ '\n') →
      typeChars
        ⟨(store.take i ++ [(r.take k0 ++ acc) ++ r.drop k0])
            ++ store.drop (i + 1),
          [.insertion ⟨i, k0⟩ ⟨i, k0 + acc.length⟩ acc], []⟩
        ⟨i, k0 + acc.length⟩ cs
      = some (⟨(store.take i ++ [(r.take k0 ++ (acc ++ cs)) ++ r.drop k0])
            ++ store.drop (i + 1),
          [.insertion ⟨i, k0⟩ ⟨i, k0 + (acc ++ cs).length⟩ (acc ++ cs)], []⟩,
        ⟨i, k0 + (acc ++ cs).length⟩) := by
  have hi : i < store.length := (List.getElem?_eq_some.mp hr).1
  have htakeS : (store.take i).length = i := List.length_take_of_le (le_of_lt hi)
  have htakeR : (r.take k0).length = k0 := List.length_take_of_le hk
  intro cs
  induction cs with
  | nil =>
    intro acc hacc hcs
    simp [typeChars]
  | cons c cs ih =>
    intro acc hacc hcs
    have hcnl : c ≠ '\n' := hcs c (by simp)
    have hcs' : ∀ x ∈ cs, x ≠ '\n' := fun x hx => hcs x (by simp [hx])
    have hnlc : '\n' ∉ [c] := fun hm => hcnl (List.mem_singleton.mp hm).symm
    have hrow : ((store.take i ++ [(r.take k0 ++ acc) ++ r.drop k0])
        ++ store.drop (i + 1))[i]? = some ((r.take k0 ++ acc) ++ r.drop k0) := by
      rw [List.append_assoc, List.singleton_append]
      exact getElem?_middle _ _ _ htakeS.symm
    have hcol : k0 + acc.length ≤ ((r.take k0 ++ acc) ++ r.drop k0).length := by
      simp only [List.length_append, htakeR]; omega
    have hins := @insert_at_no_nl
      ((store.take i ++ [(r.take k0 ++ acc) ++ r.drop k0]) ++ store.drop (i + 1))
      ⟨i, k0 + acc.length⟩ ((r.take k0 ++ acc) ++ r.drop k0)
      hrow hcol [c] hnlc
    have hTake : (((store.take i ++ [(r.take k0 ++ acc) ++ r.drop k0])
        ++ store.drop (i + 1)).take i) = store.take i := by
      rw [List.append_assoc]
      exact List.take_left' htakeS
    have hDrop : (((store.take i ++ [(r.take k0 ++ acc) ++ r.drop k0])
        ++ store.drop (i + 1)).drop (i + 1)) = store.drop (i + 1) :=
      List.drop_left'
        (by simp only [List.length_append, List.length_singleton, htakeS])
    have hRowTake : ((r.take k0 ++ acc) ++ r.drop k0).take (k0 + acc.length)
        = r.take k0 ++ acc :=
      List.take_left' (by simp only [List.length_append, htakeR])
    have hRowDrop : ((r.take k0 ++ acc) ++ r.drop k0).drop (k0 + acc.length)
        = r.drop k0 :=
      List.drop_left' (by simp only [List.length_append, htakeR])
    rw [hTake, hDrop, hRowTake, hRowDrop] at hins
    have hstop : insEndPos ⟨i, k0 + acc.length⟩ [c]
        = ⟨i, k0 + acc.length + 1⟩ := by
      simp [insEndPos, splitOnNl_eq_single [c] hnlc]
    simp only [typeChars, typeChar, hins, hstop, Option.map_some',
      Option.bind_some]
    have hrec : record
        ⟨(store.take i ++ [(r.take k0 ++ acc ++ [c]) ++ r.drop k0])
            ++ store.drop (i + 1),
          [.insertion ⟨i, k0⟩ ⟨i, k0 + acc.length⟩ acc], []⟩
        (.insertion ⟨i, k0 + acc.length⟩ ⟨i, k0 + acc.length + 1⟩ [c])
        true false
      = ⟨(store.take i ++ [(r.take k0 ++ acc ++ [c]) ++ r.drop k0])
            ++ store.drop (i + 1),
          [.insertion ⟨i, k0⟩ ⟨i, k0 + acc.length + 1⟩ (acc ++ [c])], []⟩ := by
      simp [record, coalesces, mergeEvents]
    rw [hrec]
    have hassoc : (r.take k0 ++ acc ++ [c]) ++ r.drop k0
        = (r.take k0 ++ (acc ++ [c])) ++ r.drop k0 := by
      simp [List.append_assoc]
    rw [hassoc]
    have hlen1 : k0 + acc.length + 1 = k0 + (acc ++ [c]).length := by
      simp only [List.length_append, List.length_singleton]; omega
    rw [hlen1]
    simp only [Option.some_bind]
    rw [ih (acc ++ [c]) (by simp) hcs']
    simp [List.append_assoc]

/-! ## Reachability and nonemptiness -/

theorem undoEvent_ne_nil {store store' : RowStore} {ev : Event}
    (h : undoEvent store ev = some store') : store' ≠ [] := by
  cases ev with
  | insertion s e t =>
    simp only [undoEvent, Option.map_eq_some'] at h
    obtain ⟨⟨rm, st2⟩, hd, hpr⟩ := h
    exact hpr ▸ delete_range_ne_nil hd
  | deletion s e t => exact insert_at_ne_nil h

theorem redoEvent_ne_nil {store store' : RowStore} {ev : Event}
    (h : redoEvent store ev = some store') : store' ≠ [] := by
  cases ev with
  | insertion s e t => exact insert_at_ne_nil h
  | deletion s e t =>
    simp only [redoEvent, Option.map_eq_some'] at h
    obtain ⟨⟨rm, st2⟩, hd, hpr⟩ := h
    exact hpr ▸ delete_range_ne_nil hd

theorem editorStep_ne_nil {st st' : EditorState} (h : EditorStep st st')
    (hne : st.store ≠ []) : st'.store ≠ [] := by
  cases h with
  | edit op hap =>
    simp only [applyEdit, Option.map_eq_some'] at hap
    obtain ⟨⟨store1, ev⟩, hap, hpair⟩ := hap
    subst hpair
    cases op with
    | insert pos text =>
      simp only [applyOp, Option.map_eq_some'] at hap
      obtain ⟨a, ha, hpr⟩ := hap
      have ha' : a = store1 := congrArg Prod.fst hpr
      subst ha'
      exact insert_at_ne_nil ha
    | delete s e =>
      simp only [applyOp, Option.map_eq_some'] at hap
      obtain ⟨⟨rm, st2⟩, ha, hpr⟩ := hap
      have ha' : st2 = store1 := congrArg Prod.fst hpr
      subst ha'
      exact delete_range_ne_nil ha
  | undo =>
    rcases hstk : st.undoStack with _ | ⟨ev, rest⟩
    · simp only [undoOp, hstk]
      exact hne
    · rcases hev : undoEvent st.store ev with _ | store1
      · simp only [undoOp, hstk, hev]
        exact hne
      · simp only [undoOp, hstk, hev]
        exact undoEvent_ne_nil hev
  | redo =>
    rcases hstk : st.redoStack with _ | ⟨ev, rest⟩
    · simp only [redoOp, hstk]
      exact hne
    · rcases hev : redoEvent st.store ev with _ | store1
      · simp only [redoOp, hstk, hev]
        exact hne
      · simp only [redoOp, hstk, hev]
        exact redoEvent_ne_nil hev

theorem reachable_ne_nil {st st' : EditorState} (h : ReachableState st st')
    (hne : st.store ≠ []) : st'.store ≠ [] := by
  induction h with
  | refl => exact hne
  | tail hsteps hstep ih => exact editorStep_ne_nil hstep ih

theorem splitOnNl_length (t : List Char) :
    (splitOnNl t).length = t.count '\n' + 1 := by
  induction t with
  | nil => rfl
  | cons c rest ih =>
    simp only [splitOnNl, List.count_cons]
    split
    · rename_i hc
      simp [hc, ih]
    · rename_i hc
      cases h : splitOnNl rest with
      | nil => exact absurd h (splitOnNl_ne_nil rest)
      | cons p ps =>
        rw [h] at ih
        simp only [List.length_cons] at ih ⊢
        have : ¬(c == '\n') = true := by simpa using hc
        simp [this, ih]

/-! ## Claim theorems -/

/-- C1: for every sequence of N insert/delete operations, each recorded as
its own uncoalesced undo `Event`, calling undo N times restores the buffer
content byte-for-byte to the original pre-edit content, and calling redo
N times then restores the post-edit content. -/
theorem claim_undo_redo_roundtrip {store0 : RowStore} {ops : List EditOp}
    {st : EditorState} (hnl : NlFree store0)
    (h : applyEdits ⟨store0, [], []⟩ ops = some st) :
    (undoN ops.length st).store = store0 ∧
      (redoN ops.length (undoN ops.length st)).store = st.store := by
  obtain ⟨hnl', hchain, hlen⟩ :=
    applyEdits_chain ops ⟨store0, [], []⟩ st hnl (.nil store0) h
  obtain ⟨s, evs, rstk⟩ := st
  replace hchain : UndoChain store0 evs s := hchain
  replace hlen : evs.length = ops.length := by simpa using hlen
  have hu := undoN_chain hchain [] rstk
  rw [List.append_nil] at hu
  have hre := redoN_chain hchain [] rstk
  rw [← hlen, hu]
  refine ⟨rfl, ?_⟩
  rw [hre]

/-- Witness for C1 at a concrete two-operation edit sequence. -/
theorem claim_undo_redo_roundtrip_witness :
    NlFree [['a','b']] ∧
    applyEdits ⟨[['a','b']], [], []⟩ [.insert ⟨0,1⟩ ['x'], .delete ⟨0,0⟩ ⟨0,1⟩]
      = some ⟨[['x','b']],
        [.deletion ⟨0,0⟩ ⟨0,1⟩ ['a'], .insertion ⟨0,1⟩ ⟨0,2⟩ ['x']], []⟩ ∧
    ((undoN 2 ⟨[['x','b']],
        [.deletion ⟨0,0⟩ ⟨0,1⟩ ['a'], .insertion ⟨0,1⟩ ⟨0,2⟩ ['x']], []⟩).store
      = [['a','b']] ∧
     (redoN 2 (undoN 2 ⟨[['x','b']],
        [.deletion ⟨0,0⟩ ⟨0,1⟩ ['a'], .insertion ⟨0,1⟩ ⟨0,2⟩ ['x']], []⟩)).store
      = (⟨[['x','b']],
        [.deletion ⟨0,0⟩ ⟨0,1⟩ ['a'], .insertion ⟨0,1⟩ ⟨0,2⟩ ['x']],
          []⟩ : EditorState).store) :=
  ⟨by decide, by decide,
    @claim_undo_redo_roundtrip [['a','b']]
      [.insert ⟨0,1⟩ ['x'], .delete ⟨0,0⟩ ⟨0,1⟩]
      ⟨[['x','b']],
        [.deletion ⟨0,0⟩ ⟨0,1⟩ ['a'], .insertion ⟨0,1⟩ ⟨0,2⟩ ['x']], []⟩
      (by decide) (by decide)⟩

/-- C2: every editor state reachable from a state whose buffer has at least
one row again has at least one row; deleting the entire content of a
one-line buffer yields exactly one empty row; an empty document is one
empty row. -/
theorem claim_rowstore_never_empty :
    (∀ st st' : EditorState, 1 ≤ st.store.length → ReachableState st st' →
      1 ≤ st'.store.length) ∧
    (∀ r : Row, delete_range [r] ⟨0, 0⟩ ⟨0, r.length⟩ = some (r, [[]])) ∧
    emptyDocument.length = 1 := by
  refine ⟨?_, ?_, rfl⟩
  · intro st st' h1 hreach
    have hne : st.store ≠ [] := by
      intro hc
      rw [hc] at h1
      simp at h1
    have := reachable_ne_nil hreach hne
    exact List.length_pos.mpr this
  · intro r
    have h0 : ([r] : RowStore)[0]? = some r := rfl
    rw [delete_range_same_row h0 (Nat.zero_le _) (le_refl _)]
    simp

/-- Witness for C2: one undo step from the one-row empty document. -/
theorem claim_rowstore_never_empty_witness :
    1 ≤ (⟨[[]], [], []⟩ : EditorState).store.length ∧
    1 ≤ ((undoOp ⟨[[]], [], []⟩).1).store.length :=
  ⟨by decide, claim_rowstore_never_empty.1 _ _ (by decide)
    (Relation.ReflTransGen.single (EditorStep.undo _))⟩

/-- C3: applying any new mutating command that is not itself undo or redo
leaves the redo stack empty, and a subsequent redo call reports
`NothingToRedo`. -/
theorem claim_new_edit_clears_redo :
    ∀ (st : EditorState) (op : EditOp) (st' : EditorState),
      applyEdit st op = some st' →
      st'.redoStack = [] ∧ redoOp st' = (st', .nothingToRedo) := by
  intro st op st' h
  simp only [applyEdit, Option.map_eq_some'] at h
  obtain ⟨⟨store1, ev⟩, hap, hpair⟩ := h
  subst hpair
  exact ⟨rfl, rfl⟩

/-- Witness for C3: the redo stack is non-empty after one undo, a new
insertion clears it, and redo then reports `NothingToRedo`. -/
theorem claim_new_edit_clears_redo_witness :
    (⟨[['a']], [], [.insertion ⟨0,1⟩ ⟨0,2⟩ ['b']]⟩ : EditorState).redoStack
      ≠ [] ∧
    applyEdit ⟨[['a']], [], [.insertion ⟨0,1⟩ ⟨0,2⟩ ['b']]⟩
        (.insert ⟨0,1⟩ ['c'])
      = some ⟨[['a','c']], [.insertion ⟨0,1⟩ ⟨0,2⟩ ['c']], []⟩ ∧
    ((⟨[['a','c']], [.insertion ⟨0,1⟩ ⟨0,2⟩ ['c']], []⟩ :
        EditorState).redoStack = [] ∧
      redoOp ⟨[['a','c']], [.insertion ⟨0,1⟩ ⟨0,2⟩ ['c']], []⟩
        = (⟨[['a','c']], [.insertion ⟨0,1⟩ ⟨0,2⟩ ['c']], []⟩,
          .nothingToRedo)) :=
  ⟨by decide, by decide,
    claim_new_edit_clears_redo
      ⟨[['a']], [], [.insertion ⟨0,1⟩ ⟨0,2⟩ ['b']]⟩ (.insert ⟨0,1⟩ ['c'])
      ⟨[['a','c']], [.insertion ⟨0,1⟩ ⟨0,2⟩ ['c']], []⟩ (by decide)⟩

/-- C4: `delete_range` returns exactly the text it removed — inserting the
returned text back at the start position restores the original buffer — and
on rows ["abc", "def"], `delete_range((0,1),(1,1))` leaves ["aef"] and
returns "bc\nd". -/
theorem claim_delete_range_returns_removed_text :
    (∀ (store : RowStore) (s e : Position) (removed : List Char)
        (store' : RowStore), NlFree store →
        delete_range store s e = some (removed, store') →
        insert_at store' s removed = some store) ∧
      delete_range [['a','b','c'], ['d','e','f']] ⟨0,1⟩ ⟨1,1⟩
        = some (['b','c','\n','d'], [['a','e','f']]) :=
  ⟨fun _ _ _ _ _ hnl h => delete_then_insert hnl h, by decide⟩

/-- Witness for C4 at the spec's concrete scenario. -/
theorem claim_delete_range_returns_removed_text_witness :
    NlFree [['a','b','c'], ['d','e','f']] ∧
    delete_range [['a','b','c'], ['d','e','f']] ⟨0,1⟩ ⟨1,1⟩
      = some (['b','c','\n','d'], [['a','e','f']]) ∧
    insert_at [['a','e','f']] ⟨0,1⟩ ['b','c','\n','d']
      = some [['a','b','c'], ['d','e','f']] :=
  ⟨by decide, by decide,
    claim_delete_range_returns_removed_text.1
      [['a','b','c'], ['d','e','f']] ⟨0,1⟩ ⟨1,1⟩ ['b','c','\n','d']
      [['a','e','f']] (by decide) (by decide)⟩

/-- C5: typing the five characters of "hello" as five sequential
single-character insertion events from the typing origin, with adjacent
positions and no boundary trigger, records exactly one undo `Event`, and a
single undo removes all five characters at once. -/
theorem claim_typing_hello_one_event {store : RowStore} {r : Row} {i k : Nat}
    (hr : store[i]? = some r) (hk : k ≤ r.length) :
    ∃ st : EditorState,
      typeChars ⟨store, [], []⟩ ⟨i, k⟩ ['h','e','l','l','o']
        = some (st, ⟨i, k + 5⟩) ∧
      st.undoStack.length = 1 ∧
      (undoOp st).1.store = store ∧ (undoOp st).2 = .done := by
  have hnlh : '\n' ∉ ['h'] := by decide
  have hins1 := @insert_at_no_nl store ⟨i, k⟩ r hr hk ['h'] hnlh
  have hstop1 : insEndPos ⟨i, k⟩ ['h'] = ⟨i, k + 1⟩ := by
    simp [insEndPos, splitOnNl_eq_single ['h'] hnlh]
  have hstep1 : typeChar ⟨store, [], []⟩ ⟨i, k⟩ 'h'
      = some (⟨(store.take i ++ [(r.take k ++ ['h']) ++ r.drop k])
            ++ store.drop (i + 1),
          [.insertion ⟨i, k⟩ ⟨i, k + 1⟩ ['h']], []⟩, ⟨i, k + 1⟩) := by
    simp only [typeChar, hins1, hstop1, Option.map_some']
    rfl
  have hrest := typeChars_coalesce hr hk ['e','l','l','o'] ['h']
    (by simp) (by decide)
  replace hrest : typeChars
      ⟨(store.take i ++ [(r.take k ++ ['h']) ++ r.drop k])
          ++ store.drop (i + 1),
        [.insertion ⟨i, k⟩ ⟨i, k + 1⟩ ['h']], []⟩
      ⟨i, k + 1⟩ ['e','l','l','o']
    = some (⟨(store.take i ++ [(r.take k ++ ['h','e','l','l','o'])
            ++ r.drop k]) ++ store.drop (i + 1),
        [.insertion ⟨i, k⟩ ⟨i, k + 5⟩ ['h','e','l','l','o']], []⟩,
      ⟨i, k + 5⟩) := hrest
  have hfull : typeChars ⟨store, [], []⟩ ⟨i, k⟩ ['h','e','l','l','o']
      = some (⟨(store.take i ++ [(r.take k ++ ['h','e','l','l','o'])
            ++ r.drop k]) ++ store.drop (i + 1),
        [.insertion ⟨i, k⟩ ⟨i, k + 5⟩ ['h','e','l','l','o']], []⟩,
      ⟨i, k + 5⟩) := by
    simp only [typeChars, hstep1, Option.some_bind]
    exact hrest
  have hnlfull : '\n' ∉ (['h','e','l','l','o'] : List Char) := by decide
  have hinsF := @insert_at_no_nl store ⟨i, k⟩ r hr hk ['h','e','l','l','o']
    hnlfull
  have hdel := insert_then_delete hinsF
  have hstopF : insEndPos ⟨i, k⟩ ['h','e','l','l','o'] = ⟨i, k + 5⟩ := by
    simp [insEndPos, splitOnNl_eq_single _ hnlfull]
  rw [hstopF] at hdel
  refine ⟨_, hfull, rfl, ?_, ?_⟩
  · simp only [undoOp, undoEvent, hdel, Option.map_some']
  · simp only [undoOp, undoEvent, hdel, Option.map_some']

/-- Witness for C5 starting from the one-row empty document. -/
theorem claim_typing_hello_one_event_witness :
    ([[]] : RowStore)[0]? = some [] ∧ 0 ≤ ([] : Row).length ∧
    (∃ st : EditorState,
      typeChars ⟨[[]], [], []⟩ ⟨0, 0⟩ ['h','e','l','l','o']
        = some (st, ⟨0, 0 + 5⟩) ∧
      st.undoStack.length = 1 ∧
      (undoOp st).1.store = [[]] ∧ (undoOp st).2 = .done) :=
  ⟨rfl, by decide,
    @claim_typing_hello_one_event [[]] [] 0 0 rfl (by decide)⟩

/-- C6: `insert_at` fails with `OutOfBounds` exactly when the row index is
not a valid row or the column exceeds that row's grapheme length; otherwise
it succeeds, splicing into the existing row when the text has no line
terminator, and growing the row count by the number of terminators when
terminators are present. -/
theorem claim_insert_at_out_of_bounds :
    ∀ (store : RowStore) (pos : Position) (text : List Char),
      (insert_at store pos text = none ↔
        store.length ≤ pos.row ∨
          ∃ r, store[pos.row]? = some r ∧ r.length < pos.col) ∧
      (∀ r, store[pos.row]? = some r → pos.col ≤ r.length → '\n' ∉ text →
        insert_at store pos text
          = some (store.take pos.row
            ++ [r.take pos.col ++ text ++ r.drop pos.col]
            ++ store.drop (pos.row + 1))) ∧
      (∀ store', insert_at store pos text = some store' →
        store'.length = store.length + text.count '\n') := by
  intro store pos text
  refine ⟨⟨?_, ?_⟩, ?_, ?_⟩
  · intro h
    unfold insert_at at h
    split at h
    · rename_i hnone
      exact .inl (List.getElem?_eq_none_iff.mp hnone)
    · rename_i r hr
      split at h
      · rename_i hc
        split at h
        · rename_i hsp
          exact absurd hsp (splitOnNl_ne_nil text)
        · exact absurd h (by simp)
        · exact absurd h (by simp)
      · rename_i hc
        exact .inr ⟨r, hr, by omega⟩
  · intro h
    rcases h with h | ⟨r, hr, hcol⟩
    · have hnone : store[pos.row]? = none := List.getElem?_eq_none_iff.mpr h
      simp [insert_at, hnone]
    · simp only [insert_at, hr]
      rw [if_neg (by omega)]
  · intro r hr hc hnltext
    exact insert_at_no_nl hr hc hnltext
  · intro store' h
    obtain ⟨r, hr, hc, hcase⟩ := insert_at_inv h
    have hi : pos.row < store.length := (List.getElem?_eq_some.mp hr).1
    have hcount : (splitOnNl text).length = text.count '\n' + 1 :=
      splitOnNl_length text
    rcases hcase with ⟨p, hp, hst⟩ | ⟨p, ps, hp, hne, hst⟩
    · rw [hp] at hcount
      subst hst
      simp only [List.length_append, List.length_singleton,
        List.length_take, List.length_drop]
      simp only [List.length_singleton] at hcount
      omega
    · obtain ⟨qs, q, rfl⟩ := (List.eq_nil_or_concat ps).resolve_left hne
      rw [List.concat_eq_append] at hp hst
      rw [spliceLast_concat] at hst
      rw [hp] at hcount
      subst hst
      simp only [List.length_append, List.length_cons,
        List.length_singleton, List.length_take, List.length_drop] at hcount ⊢
      omega

/-- Witness for C6: an out-of-bounds column, a plain splice, and a
row-splitting insert. -/
theorem claim_insert_at_out_of_bounds_witness :
    (insert_at [['a']] ⟨0, 2⟩ ['x'] = none ↔
      ([['a']] : RowStore).length ≤ 0 ∨
        ∃ r, ([['a']] : RowStore)[0]? = some r ∧ r.length < 2) ∧
    insert_at [['a','b']] ⟨0, 1⟩ ['x','\n','y']
      = some [['a','x'], ['y','b']] ∧
    ([['a','x'], ['y','b']] : RowStore).length
      = ([['a','b']] : RowStore).length + (['x','\n','y'] : List Char).count '\n' :=
  ⟨(claim_insert_at_out_of_bounds [['a']] ⟨0, 2⟩ ['x']).1, by decide,
    (claim_insert_at_out_of_bounds [['a','b']] ⟨0, 1⟩ ['x','\n','y']).2.2
      [['a','x'], ['y','b']] (by decide)⟩

/-- C7: after `set $x 5`, a later command in the same session resolves `$x`
to 5 (resolution at execution time against the variable table); a command
referencing a never-set variable fails with `UndefinedVariable`. -/
theorem claim_interpreter_variables :
    (∀ (tbl : VarTable) (name : String) (v : Value),
      resolveArg (setVar tbl name v) (.varRef name) = .ok v) ∧
    (∀ (tbl : VarTable) (name : String), lookupVar tbl name = none →
      resolveArg tbl (.varRef name) = .error (.undefinedVariable name)) ∧
    runSession [] [.set "x" (.lit (.num 5)), .use (.varRef "x")]
      = .ok ([("x", .num 5)], some (.num 5)) := by
  refine ⟨?_, ?_, rfl⟩
  · intro tbl name v
    simp [resolveArg, lookupVar, setVar]
  · intro tbl name h
    simp [resolveArg, h]

/-- Witness for C7: `$y` was never set, so referencing it fails. -/
theorem claim_interpreter_variables_witness :
    lookupVar [] "y" = none ∧
    resolveArg [] (.varRef "y") = .error (.undefinedVariable "y") :=
  ⟨rfl, claim_interpreter_variables.2.1 [] "y" rfl⟩

/-- C8: undo on an empty undo stack leaves the state unchanged and reports
`NothingToUndo`; redo on an empty redo stack leaves the state unchanged and
reports `NothingToRedo`. -/
theorem claim_undo_redo_empty_noop :
    ∀ st : EditorState,
      (st.undoStack = [] → undoOp st = (st, .nothingToUndo)) ∧
      (st.redoStack = [] → redoOp st = (st, .nothingToRedo)) := by
  intro st
  obtain ⟨s, u, r⟩ := st
  constructor
  · intro h
    replace h : u = [] := h
    subst h
    rfl
  · intro h
    replace h : r = [] := h
    subst h
    rfl

/-- Witness for C8 at the empty document with empty stacks. -/
theorem claim_undo_redo_empty_noop_witness :
    undoOp ⟨[[]], [], []⟩ = (⟨[[]], [], []⟩, .nothingToUndo) ∧
    redoOp ⟨[[]], [], []⟩ = (⟨[[]], [], []⟩, .nothingToRedo) :=
  ⟨(claim_undo_redo_empty_noop ⟨[[]], [], []⟩).1 rfl,
    (claim_undo_redo_empty_noop ⟨[[]], [], []⟩).2 rfl⟩

/-- C9: `load_config` returns the platform config directory followed by
"/ox/ox.ron" exactly when the base directories resolve to a UTF-8 path and
returns `none` otherwise; `main` then falls back to the literal
"~/.config/ox/ox.ron" exactly when `load_config` returns `none`. -/
theorem claim_load_config_path :
    ∀ env : BaseDirsEnv,
      (∀ s, load_config env = some s ↔
        ∃ base, env = some (some base) ∧ s = base ++ "/ox/ox.ron") ∧
      (load_config env = none → mainConfigDir env = "~/.config/ox/ox.ron") ∧
      (∀ s, load_config env = some s → mainConfigDir env = s) := by
  intro env
  rcases env with _ | (_ | base)
  · refine ⟨?_, ?_, ?_⟩ <;> simp [load_config, mainConfigDir]
  · refine ⟨?_, ?_, ?_⟩ <;> simp [load_config, mainConfigDir]
  · have hval : load_config (some (some base))
        = some (base ++ "/ox/ox.ron") := rfl
    refine ⟨?_, ?_, ?_⟩
    · intro s
      rw [hval]
      constructor
      · intro h
        exact ⟨base, rfl, (Option.some_inj.mp h).symm⟩
      · rintro ⟨b, hb, hs⟩
        have hb1 : some b = some base := by
          injection hb.symm
        have hb2 : b = base := Option.some_inj.mp hb1
        subst hb2
        rw [hs]
    · intro h
      rw [hval] at h
      exact absurd h (by simp)
    · intro s h
      simp only [mainConfigDir, h, Option.getD_some]

/-- Witness for C9 at a resolving environment and a failing one. -/
theorem claim_load_config_path_witness :
    load_config (some (some "/home/user/.config"))
      = some "/home/user/.config/ox/ox.ron" ∧
    mainConfigDir (some (some "/home/user/.config"))
      = "/home/user/.config/ox/ox.ron" ∧
    load_config none = none ∧
    mainConfigDir none = "~/.config/ox/ox.ron" :=
  ⟨rfl, (claim_load_config_path (some (some "/home/user/.config"))).2.2
      "/home/user/.config/ox/ox.ron" rfl,
    rfl, (claim_load_config_path none).2.1 rfl⟩

/-- C10: every `log!` invocation either appends the "<type>: <msg>" line to
/tmp/ox.log or panics: it panics when the open fails, panics when the write
fails, appends otherwise, and never returns an error value. -/
theorem claim_log_macro_outcomes :
    ∀ (openOk writeOk : Bool) (ty msg : String),
      (openOk = false → logInvoke openOk writeOk ty msg = .panicked) ∧
      (openOk = true → writeOk = false →
        logInvoke openOk writeOk ty msg = .panicked) ∧
      (openOk = true → writeOk = true →
        logInvoke openOk writeOk ty msg = .appended (ty ++ ": " ++ msg)) ∧
      (logInvoke openOk writeOk ty msg = .appended (ty ++ ": " ++ msg) ∨
        logInvoke openOk writeOk ty msg = .panicked) := by
  intro openOk writeOk ty msg
  cases openOk <;> cases writeOk <;> simp [logInvoke]

/-- Witness for C10 at a successful open and write. -/
theorem claim_log_macro_outcomes_witness :
    logInvoke true true "Ox started" "Ox has just been started"
      = .appended ("Ox started" ++ ": " ++ "Ox has just been started") :=
  (claim_log_macro_outcomes true true "Ox started"
    "Ox has just been started").2.2.1 rfl rfl
